import Mathlib

/-
Shallow embedding of the text-anchored highlight engine of
`src/src/App.tsx` (the `highlightWords` / `findWordPositions` functions
and the highlight-collection updates of the `App` component).

Conventions of the embedding:
* JS strings are `List Char`; indices are UTF-16 code-unit indices
  (all sample texts are ASCII, where code units and `Char`s coincide).
* JS numbers are modelled as rationals `ℚ`: all arithmetic the scanner
  performs (add, sub, mul, div) is exact on the sample inputs.
* The regex built on line 56 of App.tsx, `new RegExp("\\b" + escapedWord
  + "\\b", "g")`, is applied to an `escapedWord` in which every regex
  metacharacter (the set `[.*+?^${}()|[\]\\]`, line 55) is escaped, so
  the compiled pattern denotes: the literal characters of the word,
  between two `\b` word-boundary assertions.  `matchAt` below embeds
  exactly that denotation; `\w` in JS (no `u`/unicode flag) is
  `[A-Za-z0-9_]`, embedded by `isWordChar`.
* `regex.exec` with the `g` flag returns the first match starting at
  `lastIndex` or later and sets `lastIndex` to the end of the match
  (for a zero-length match `lastIndex` is unchanged); on failure it
  returns `null`.  The `while ((match = regex.exec(itemText)) !== null)`
  loop of lines 67-99 is embedded by `scanLoop`, written with an
  explicit fuel argument so that the embedding is total: `none` means
  the loop did not finish within the given number of iterations.
  For a non-empty word, fuel `itemText.length + 1` is proved sufficient.
-/

namespace Highlighter

/-- Membership in the JS `\w` class `[A-Za-z0-9_]` (the class that the
`\b` assertions of the pattern on App.tsx line 56 are defined from). -/
def isWordChar (c : Char) : Bool :=
  (('a' ≤ c && c ≤ 'z') || ('A' ≤ c && c ≤ 'Z') || ('0' ≤ c && c ≤ '9') || (c == '_'))

/-- Whether position `p` of the text holds a word character (positions
outside the text count as non-word, as at the edges of a JS string). -/
def wordAt (cs : List Char) (p : Nat) : Bool :=
  match cs[p]? with
  | some c => isWordChar c
  | none => false

/-- The JS `\b` assertion at position `p`: the character before `p` and
the character at `p` differ in word-character-ness (string edges count
as non-word). -/
def boundary (cs : List Char) (p : Nat) : Bool :=
  (match p with
   | 0 => false
   | Nat.succ q => wordAt cs q) != wordAt cs p

/-- The regex `\b<escaped word>\b` matches the text `cs` at start
position `i`: the literal word occupies `[i, i + w.length)` and both
ends sit on a `\b` boundary.  The explicit length bound is implied by
the substring equation (and, for the empty word, by the boundary),
and makes the arithmetic available to proofs. -/
def matchAt (cs w : List Char) (i : Nat) : Bool :=
  decide (i + w.length ≤ cs.length) && decide ((cs.drop i).take w.length = w)
    && boundary cs i && boundary cs (i + w.length)

/-- First position `≥ i` among the next `k` candidate positions where
the pattern matches (helper for `findMatch`). -/
def firstMatchFrom (cs w : List Char) : Nat → Nat → Option Nat
  | _, 0 => none
  | i, Nat.succ k => if matchAt cs w i then some i else firstMatchFrom cs w (i + 1) k

/-- One call of `regex.exec(itemText)` (App.tsx line 67) with
`regex.lastIndex = li`: the first match at a position `≥ li`, returned
as `(match.index, regex.lastIndex after the call)`.  Candidate start
positions range over `li, …, cs.length`. -/
def findMatch (cs w : List Char) (li : Nat) : Option (Nat × Nat) :=
  (firstMatchFrom cs w li (cs.length + 1 - li)).map (fun s => (s, s + w.length))

/-- The `while ((match = regex.exec(itemText)) !== null)` loop of
App.tsx lines 67-99, restricted to the sequence of `(startIndex,
endIndex)` pairs it visits.  `fuel` bounds the number of iterations;
`none` means the loop was still running when the fuel ran out (for a
zero-length match `exec` leaves `lastIndex` unchanged, so the JS loop
never terminates; `scanLoop` then returns `none` for every fuel). -/
def scanLoop (cs w : List Char) : Nat → Nat → Option (List (Nat × Nat))
  | 0, _ => none
  | Nat.succ fuel, li =>
    match findMatch cs w li with
    | none => some []
    | some (s, e) => (scanLoop cs w fuel e).map (fun rest => (s, e) :: rest)

/-- The complete list of `(startIndex, endIndex)` matches the exec loop
produces on one text run, with the proved-sufficient fuel
`cs.length + 1` (sufficient whenever the word is non-empty). -/
def jsMatches (cs w : List Char) : List (Nat × Nat) :=
  (scanLoop cs w (cs.length + 1) 0).getD []

/-- All start positions at which the whole-word pattern matches the
text (every candidate position is `≤ cs.length`, see `matchAt_le`). -/
def occList (cs w : List Char) : List Nat :=
  (List.range (cs.length + 1)).filter (fun i => matchAt cs w i)

/-- The `{width, height}` record returned by `page.getViewport({scale: 1})`
(App.tsx line 61). -/
structure Viewport where
  width : ℚ
  height : ℚ
deriving DecidableEq

/-- One item of `textContent.items` (App.tsx lines 63-77): its string
`item.str`, the two translation entries `item.transform[4]` and
`item.transform[5]` the code reads, and `item.width` / `item.height`.
The remaining transform entries `[0..3]` are never read by the code. -/
structure TextRun where
  str : List Char
  t4 : ℚ
  t5 : ℚ
  width : ℚ
  height : ℚ
deriving DecidableEq

/-- The rectangle record pushed by App.tsx lines 82-97. -/
structure Rect where
  x1 : ℚ
  y1 : ℚ
  x2 : ℚ
  y2 : ℚ
  width : ℚ
  height : ℚ
deriving DecidableEq

/-- The `ScaledPosition` record pushed by App.tsx lines 80-98. -/
structure ScaledPosition where
  pageNumber : Nat
  boundingRect : Rect
  rects : List Rect
deriving DecidableEq

/-- The body of the while loop, App.tsx lines 68-98: the `ScaledPosition`
pushed for one match `[startIndex, endIndex)` of one text run.
`charWidth = item.width / itemText.length` (line 71),
`x = item.transform[4] + startIndex * charWidth` (line 74),
`y = viewport.height - item.transform[5]` (line 75),
`width = (endIndex - startIndex) * charWidth` (line 76),
`height = item.height` (line 77). -/
def mkPosition (run : TextRun) (vp : Viewport) (pageNum : Nat) (startIndex endIndex : Nat) : ScaledPosition :=
  let charWidth : ℚ := run.width / (run.str.length : ℚ)
  let x : ℚ := run.t4 + (startIndex : ℚ) * charWidth
  let y : ℚ := vp.height - run.t5
  let width : ℚ := ((endIndex - startIndex : Nat) : ℚ) * charWidth
  let height : ℚ := run.height
  { pageNumber := pageNum,
    boundingRect :=
      { x1 := x, y1 := y - height, x2 := x + width, y2 := y,
        width := vp.width, height := vp.height },
    rects :=
      [{ x1 := x, y1 := y - height, x2 := x + width, y2 := y,
         width := width, height := height }] }

/-- The positions one text run contributes: one `ScaledPosition` per
iteration of the exec loop (App.tsx lines 67-99).  The division
`item.width / itemText.length` occurs inside the mapped loop body, so a
run with no match performs no division (App.tsx line 71). -/
def runPositions (pageNum : Nat) (vp : Viewport) (word : List Char) (run : TextRun) : List ScaledPosition :=
  (jsMatches run.str word).map (fun m => mkPosition run vp pageNum m.1 m.2)

/-- A successfully extracted page: its text runs and its scale-1
viewport (App.tsx lines 59-61). -/
structure Page where
  runs : List TextRun
  viewport : Viewport
deriving DecidableEq

/-- The `textContent.items.forEach` of App.tsx lines 63-100: every run
of the page contributes its positions, in run order. -/
def scanPage (pageNum : Nat) (pg : Page) (word : List Char) : List ScaledPosition :=
  pg.runs.flatMap (runPositions pageNum pg.viewport word)

/-- The `for (let pageNum = 1; ...)` loop of App.tsx lines 58-101.
A document is a list of pages in order 1, 2, …; `none` stands for a
page whose `getPage`/`getTextContent` call raises.  A raised extraction
failure propagates out of the loop (there is no per-page handler), so
every position gathered so far is abandoned. -/
def scanPages (word : List Char) : List (Option Page) → Nat → Except Unit (List ScaledPosition)
  | [], _ => Except.ok []
  | none :: _, _ => Except.error ()
  | some pg :: rest, n => (scanPages word rest (n + 1)).map (fun ps => scanPage n pg word ++ ps)

/-- `findWordPositions` of App.tsx lines 51-105: scans pages 1..numPages
and returns the accumulated positions, or the propagated extraction
failure. -/
def findWordPositionsModel (pages : List (Option Page)) (word : List Char) : Except Unit (List ScaledPosition) :=
  scanPages word pages 1

/-- One `IHighlight` record as assembled on App.tsx lines 109-117.
`content.text` and `comment.text` are both determined by `word`
(`{text: word}` and `"Automatically highlighted: " + word`), so the
record is represented by its id, its position and its word.  `getNextId`
draws a random decimal string; the embedding models the id supply as a
counter handing out fresh ids, matching the spec's assumption that
generated ids are unique within a session. -/
structure Highlight where
  id : Nat
  position : ScaledPosition
  word : List Char
deriving DecidableEq

/-- The id and content a draft position receives on App.tsx lines
109-117: each position of a batch gets the next fresh id, in order. -/
def tagBatch (word : List Char) : List ScaledPosition → Nat → List Highlight
  | [], _ => []
  | p :: ps, n => { id := n, position := p, word := word } :: tagBatch word ps (n + 1)

/-- The content of a highlight record with its id erased (its position,
and the word that determines `content.text` and `comment.text`). -/
def stripId (h : Highlight) : ScaledPosition × List Char :=
  (h.position, h.word)

/-- One merge of a scanned batch into the collection, as performed by
`setHighlights(prev => [...prev, ...highlightsToAdd])` (App.tsx line
120) for the records built on lines 109-117: fresh ids are assigned and
the tagged batch is appended at the end; nothing already stored is
touched.  Returns the new collection and the next fresh id. -/
def mergeAutomatic (hs : List Highlight) (word : List Char) (ps : List ScaledPosition) (n : Nat) : List Highlight × Nat :=
  (hs ++ tagBatch word ps n, n + ps.length)

/-- The `for (const word of words)` loop of App.tsx lines 107-118:
scans each word in word-list order and concatenates the tagged batches.
A scan failure propagates (aborting the remaining words), as the loop
body has no handler. -/
def buildHighlights (pages : List (Option Page)) : List (List Char) → Nat → Except Unit (List Highlight × Nat)
  | [], n => Except.ok ([], n)
  | w :: ws, n =>
    match findWordPositionsModel pages w with
    | Except.error e => Except.error e
    | Except.ok ps =>
      match buildHighlights pages ws (n + ps.length) with
      | Except.error e => Except.error e
      | Except.ok (rest, n2) => Except.ok (tagBatch w ps n ++ rest, n2)

/-- `highlightWords` of App.tsx lines 42-124, acting on a collection
`hs`: on success the whole accumulated batch is appended by
`setHighlights(prev => [...prev, ...highlightsToAdd])` (line 120); a
failure reaches the surrounding `try`/`catch` (lines 47, 121-123)
before that line, so the collection is left unchanged. -/
def highlightWordsModel (pages : List (Option Page)) (words : List (List Char)) (hs : List Highlight) (n : Nat) : List Highlight × Nat :=
  match buildHighlights pages words n with
  | Except.ok (batch, n2) => (hs ++ batch, n2)
  | Except.error _ => (hs, n)

/-- The two ways `App` updates the highlight collection that matter for
document switching: `toggleDocument` (App.tsx lines 141-145) replaces
the collection with the new url's fixture seed (`testHighlights[newUrl]`,
modelled from the spec's fixture seed table, §6 — the `test-highlights`
module itself is not part of the scanned sources), and a completing
scan appends its batch via `setHighlights(prev => [...prev, ...])`
(line 120), with no generation check anywhere. -/
inductive AppEvent where
  | toggleTo (fixture : List Highlight)
  | scanComplete (batch : List Highlight)
deriving DecidableEq

/-- How one event rewrites the collection (App.tsx lines 144 and 120). -/
def applyEvent (hs : List Highlight) : AppEvent → List Highlight
  | AppEvent.toggleTo fixture => fixture
  | AppEvent.scanComplete batch => hs ++ batch

/-- The collection after a sequence of events. -/
def runEvents (hs : List Highlight) (evs : List AppEvent) : List Highlight :=
  evs.foldl applyEvent hs

/-- The run of the scenario of spec §8: `{text: "In this paper we
present", transform:[1,0,0,1,0,700], width:120, height:10}`. -/
def sampleText : List Char := (r"In this paper we present").toList

/-- The scanned word of the scenario (and of the App's word list,
App.tsx line 136). -/
def wordIn : List Char := (r"In").toList

/-- The scenario's single text run. -/
def sampleRun : TextRun :=
  { str := sampleText, t4 := 0, t5 := 700, width := 120, height := 10 }

/-- The scenario's viewport `{width:600, height:800}`. -/
def sampleViewport : Viewport := { width := 600, height := 800 }

/-- The scenario's single page. -/
def samplePage : Page := { runs := [sampleRun], viewport := sampleViewport }

/-- The position the scenario is expected to produce: charWidth =
120/24 = 5, match `[0,2)`, x1 = 0, x2 = 10, y2 = 800 - 700 = 100,
y1 = 90. -/
def expectedPos : ScaledPosition :=
  { pageNumber := 1,
    boundingRect := { x1 := 0, y1 := 90, x2 := 10, y2 := 100, width := 600, height := 800 },
    rects := [{ x1 := 0, y1 := 90, x2 := 10, y2 := 100, width := 10, height := 10 }] }

/-- A run that contains the search word only embedded in a larger word
(no whole-word occurrence). -/
def insideRun : TextRun :=
  { str := (r"Inside").toList, t4 := 0, t5 := 0, width := 60, height := 10 }

/-- A degenerate run whose box extent is zero: it still contains the
word "In" exactly once as a whole word, but every rectangle computed
for it collapses (`charWidth = 0/2 = 0`, `height = 0`). -/
def zeroRun : TextRun :=
  { str := (r"In").toList, t4 := 0, t5 := 700, width := 0, height := 0 }

/-- A fixture seed for document B (modelled from the spec's fixture
seed table, §6: a literal list of pre-defined highlight records; the
`test-highlights` module itself is outside the scanned sources). -/
def fixtureB : List Highlight :=
  [{ id := 999, position := expectedPos, word := [] }]

/-- The batch an in-flight scan of document A (the sample page, word
"In") eventually delivers to `setHighlights` (App.tsx line 120). -/
def staleBatchA : List Highlight :=
  (highlightWordsModel [some samplePage] [wordIn] [] 0).1

theorem matchAt_le {cs w : List Char} {i : Nat} (h : matchAt cs w i = true) :
    i + w.length ≤ cs.length := by
  simp only [matchAt, Bool.and_eq_true, decide_eq_true_eq] at h
  exact h.1.1.1

theorem firstMatchFrom_some {cs w : List Char} :
    ∀ (k i s : Nat), firstMatchFrom cs w i k = some s →
      i ≤ s ∧ s < i + k ∧ matchAt cs w s = true ∧
        ∀ j, i ≤ j → j < s → matchAt cs w j = false
  | 0, i, s => by intro h; simp [firstMatchFrom] at h
  | k + 1, i, s => by
    intro h
    simp only [firstMatchFrom] at h
    by_cases hm : matchAt cs w i = true
    · rw [if_pos hm] at h
      injection h with h
      subst h
      exact ⟨Nat.le_refl _, by omega, hm, fun j hj1 hj2 => by omega⟩
    · rw [if_neg hm] at h
      obtain ⟨h1, h2, h3, h4⟩ := firstMatchFrom_some k (i + 1) s h
      refine ⟨by omega, by omega, h3, ?_⟩
      intro j hj1 hj2
      by_cases hji : j = i
      · subst hji
        exact Bool.not_eq_true _ ▸ hm
      · exact h4 j (by omega) hj2

theorem firstMatchFrom_none {cs w : List Char} :
    ∀ (k i : Nat), firstMatchFrom cs w i k = none →
      ∀ j, i ≤ j → j < i + k → matchAt cs w j = false
  | 0, i => by intro _ j hj1 hj2; exfalso; omega
  | k + 1, i => by
    intro h j hj1 hj2
    simp only [firstMatchFrom] at h
    by_cases hm : matchAt cs w i = true
    · rw [if_pos hm] at h; cases h
    · rw [if_neg hm] at h
      by_cases hji : j = i
      · subst hji
        exact Bool.not_eq_true _ ▸ hm
      · exact firstMatchFrom_none k (i + 1) h j (by omega) (by omega)

theorem findMatch_some {cs w : List Char} {li s e : Nat}
    (h : findMatch cs w li = some (s, e)) :
    li ≤ s ∧ e = s + w.length ∧ matchAt cs w s = true ∧
      ∀ j, li ≤ j → j < s → matchAt cs w j = false := by
  rw [findMatch, Option.map_eq_some'] at h
  obtain ⟨a, ha, hae⟩ := h
  rw [Prod.mk.injEq] at hae
  obtain ⟨rfl, he⟩ := hae
  obtain ⟨h1, _, h3, h4⟩ := firstMatchFrom_some _ _ _ ha
  exact ⟨h1, he.symm, h3, h4⟩

theorem findMatch_none {cs w : List Char} {li : Nat} (h : findMatch cs w li = none) :
    ∀ j, li ≤ j → matchAt cs w j = false := by
  intro j hj
  rw [findMatch, Option.map_eq_none'] at h
  cases hm : matchAt cs w j with
  | false => rfl
  | true =>
    exfalso
    have hle := matchAt_le hm
    have hfalse := firstMatchFrom_none _ _ h j hj (by omega)
    rw [hfalse] at hm
    cases hm

theorem scanLoop_sound {cs w : List Char} :
    ∀ (fuel li : Nat) (L : List (Nat × Nat)), scanLoop cs w fuel li = some L →
      ∀ p ∈ L, li ≤ p.1 ∧ p.2 = p.1 + w.length ∧ matchAt cs w p.1 = true
  | 0, li, L => by intro h; simp [scanLoop] at h
  | fuel + 1, li, L => by
    intro h p hp
    simp only [scanLoop] at h
    cases hfm : findMatch cs w li with
    | none =>
      rw [hfm] at h
      injection h with h
      subst h
      simp at hp
    | some se =>
      obtain ⟨s, e⟩ := se
      rw [hfm, Option.map_eq_some'] at h
      obtain ⟨rest, hrest, hL⟩ := h
      subst hL
      obtain ⟨h1, h2, h3, _⟩ := findMatch_some hfm
      rcases List.mem_cons.mp hp with rfl | hmem
      · exact ⟨h1, h2, h3⟩
      · obtain ⟨g1, g2, g3⟩ := scanLoop_sound fuel e rest hrest p hmem
        exact ⟨by omega, g2, g3⟩

theorem scanLoop_complete {cs w : List Char} :
    ∀ (fuel li : Nat) (L : List (Nat × Nat)), scanLoop cs w fuel li = some L →
      ∀ j, li ≤ j → matchAt cs w j = true →
        ∃ p ∈ L, p.1 ≤ j ∧ j < p.1 + w.length
  | 0, li, L => by intro h; simp [scanLoop] at h
  | fuel + 1, li, L => by
    intro h j hj hm
    simp only [scanLoop] at h
    cases hfm : findMatch cs w li with
    | none =>
      exfalso
      have hfalse := findMatch_none hfm j hj
      rw [hfalse] at hm
      cases hm
    | some se =>
      obtain ⟨s, e⟩ := se
      rw [hfm, Option.map_eq_some'] at h
      obtain ⟨rest, hrest, hL⟩ := h
      subst hL
      obtain ⟨h1, h2, h3, h4⟩ := findMatch_some hfm
      by_cases hjs : j < s
      · exfalso
        have hfalse := h4 j hj hjs
        rw [hfalse] at hm
        cases hm
      · by_cases hje : j < e
        · exact ⟨(s, e), List.mem_cons_self _ _, by omega, by omega⟩
        · obtain ⟨p, hp, hp1, hp2⟩ := scanLoop_complete fuel e rest hrest j (by omega) hm
          exact ⟨p, List.mem_cons_of_mem _ hp, hp1, hp2⟩

theorem scanLoop_pairwise {cs w : List Char} :
    ∀ (fuel li : Nat) (L : List (Nat × Nat)), scanLoop cs w fuel li = some L →
      L.Pairwise (fun p q => p.2 ≤ q.1)
  | 0, li, L => by intro h; simp [scanLoop] at h
  | fuel + 1, li, L => by
    intro h
    simp only [scanLoop] at h
    cases hfm : findMatch cs w li with
    | none =>
      rw [hfm] at h
      injection h with h
      subst h
      exact List.Pairwise.nil
    | some se =>
      obtain ⟨s, e⟩ := se
      rw [hfm, Option.map_eq_some'] at h
      obtain ⟨rest, hrest, hL⟩ := h
      subst hL
      refine List.Pairwise.cons ?_ (scanLoop_pairwise fuel e rest hrest)
      intro q hq
      exact (scanLoop_sound fuel e rest hrest q hq).1

theorem scanLoop_isSome {cs w : List Char} (hw : w ≠ []) :
    ∀ (fuel li : Nat), li ≤ cs.length → cs.length + 1 ≤ li + fuel →
      (scanLoop cs w fuel li).isSome = true
  | 0, li => by intro h1 h2; exfalso; omega
  | fuel + 1, li => by
    intro h1 h2
    simp only [scanLoop]
    cases hfm : findMatch cs w li with
    | none => rfl
    | some se =>
      obtain ⟨s, e⟩ := se
      obtain ⟨g1, g2, g3, _⟩ := findMatch_some hfm
      have hle := matchAt_le g3
      have hwpos : 0 < w.length := List.length_pos.mpr hw
      rw [Option.isSome_map']
      exact scanLoop_isSome hw fuel e (by omega) (by omega)

theorem scanLoop_length {cs w : List Char} (hw : w ≠ []) :
    ∀ (fuel li : Nat) (L : List (Nat × Nat)), scanLoop cs w fuel li = some L →
      L = [] ∨ li + L.length ≤ cs.length
  | 0, li, L => by intro h; simp [scanLoop] at h
  | fuel + 1, li, L => by
    intro h
    simp only [scanLoop] at h
    cases hfm : findMatch cs w li with
    | none =>
      rw [hfm] at h
      injection h with h
      subst h
      exact Or.inl rfl
    | some se =>
      obtain ⟨s, e⟩ := se
      rw [hfm, Option.map_eq_some'] at h
      obtain ⟨rest, hrest, hL⟩ := h
      subst hL
      obtain ⟨g1, g2, g3, _⟩ := findMatch_some hfm
      have hle := matchAt_le g3
      have hwpos : 0 < w.length := List.length_pos.mpr hw
      rcases scanLoop_length hw fuel e rest hrest with hrnil | hrlen
      · subst hrnil
        right
        simp only [List.length_cons, List.length_nil]
        omega
      · right
        simp only [List.length_cons]
        omega

theorem jsMatches_eq {cs w : List Char} (hw : w ≠ []) :
    scanLoop cs w (cs.length + 1) 0 = some (jsMatches cs w) := by
  have h := @scanLoop_isSome cs w hw (cs.length + 1) 0 (Nat.zero_le _) (by omega)
  cases hs : scanLoop cs w (cs.length + 1) 0 with
  | none => rw [hs] at h; cases h
  | some L => rw [jsMatches, hs]; rfl

theorem jsMatches_sound {cs w : List Char} {p : Nat × Nat} (hp : p ∈ jsMatches cs w) :
    p.2 = p.1 + w.length ∧ matchAt cs w p.1 = true := by
  rw [jsMatches] at hp
  cases hs : scanLoop cs w (cs.length + 1) 0 with
  | none => rw [hs] at hp; simp at hp
  | some L =>
    rw [hs, Option.getD_some] at hp
    obtain ⟨_, h2, h3⟩ := scanLoop_sound _ _ _ hs p hp
    exact ⟨h2, h3⟩

theorem jsMatches_pairwise (cs w : List Char) :
    (jsMatches cs w).Pairwise (fun p q => p.2 ≤ q.1) := by
  rw [jsMatches]
  cases hs : scanLoop cs w (cs.length + 1) 0 with
  | none => exact List.Pairwise.nil
  | some L =>
    rw [Option.getD_some]
    exact scanLoop_pairwise _ _ _ hs

theorem jsMatches_complete {cs w : List Char} (hw : w ≠ []) {j : Nat}
    (hm : matchAt cs w j = true) :
    ∃ p ∈ jsMatches cs w, p.1 ≤ j ∧ j < p.1 + w.length :=
  scanLoop_complete _ _ _ (jsMatches_eq hw) j (Nat.zero_le _) hm

theorem mem_occList {cs w : List Char} {i : Nat} :
    i ∈ occList cs w ↔ matchAt cs w i = true := by
  constructor
  · intro h
    exact (List.mem_filter.mp h).2
  · intro h
    refine List.mem_filter.mpr ⟨List.mem_range.mpr ?_, h⟩
    have := matchAt_le h
    omega

theorem occList_sorted (cs w : List Char) : (occList cs w).Pairwise (· < ·) :=
  List.Pairwise.sublist (List.filter_sublist _) (List.pairwise_lt_range _)

theorem pairwise_rel_of_sorted {l : List Nat} {R : Nat → Nat → Prop}
    (hs : l.Pairwise (· < ·)) (hR : l.Pairwise R) :
    ∀ a ∈ l, ∀ b ∈ l, a < b → R a b := by
  induction l with
  | nil => intro a ha; simp at ha
  | cons x t ih =>
    intro a ha b hb hab
    rcases List.mem_cons.mp ha with rfl | hat
    · rcases List.mem_cons.mp hb with rfl | hbt
      · exact absurd hab (lt_irrefl _)
      · exact (List.pairwise_cons.mp hR).1 b hbt
    · rcases List.mem_cons.mp hb with rfl | hbt
      · exfalso
        have := (List.pairwise_cons.mp hs).1 a hat
        omega
      · exact ih (List.pairwise_cons.mp hs).2 (List.pairwise_cons.mp hR).2 a hat b hbt hab

theorem tagBatch_length (word : List Char) :
    ∀ (ps : List ScaledPosition) (n : Nat), (tagBatch word ps n).length = ps.length
  | [], _ => rfl
  | p :: ps, n => by
    simp only [tagBatch, List.length_cons, tagBatch_length word ps (n + 1)]

theorem tagBatch_strip (word : List Char) :
    ∀ (ps : List ScaledPosition) (n : Nat),
      (tagBatch word ps n).map stripId = ps.map (fun p => (p, word))
  | [], _ => rfl
  | p :: ps, n => by
    simp only [tagBatch, List.map_cons, tagBatch_strip word ps (n + 1), stripId]

theorem tagBatch_id_range (word : List Char) :
    ∀ (ps : List ScaledPosition) (n : Nat), ∀ h ∈ tagBatch word ps n,
      n ≤ h.id ∧ h.id < n + ps.length
  | [], _ => by intro h hh; simp [tagBatch] at hh
  | p :: ps, n => by
    intro h hh
    simp only [tagBatch, List.mem_cons] at hh
    rcases hh with rfl | hmem
    · dsimp only
      simp only [List.length_cons]
      omega
    · obtain ⟨g1, g2⟩ := tagBatch_id_range word ps (n + 1) h hmem
      simp only [List.length_cons]
      omega

theorem scanPages_error {word : List Char} :
    ∀ (pages : List (Option Page)) (n : Nat), none ∈ pages →
      scanPages word pages n = Except.error ()
  | [], n => by intro h; simp at h
  | none :: rest, n => by intro _; rfl
  | some pg :: rest, n => by
    intro h
    have hmem : none ∈ rest := by
      rcases List.mem_cons.mp h with h1 | h2
      · simp at h1
      · exact h2
    rw [scanPages, scanPages_error rest (n + 1) hmem]
    rfl

/-- C1: For every text run with transform translation `(t4, t5)`, total
width `W`, total height `H` and text of length `L`, and every
whole-word match `[start, end)` the scanner finds, it emits a
`ScaledPosition` computed with `charWidth = W / L` as
`x1 = t4 + start·charWidth`, `y2 = viewport.height - t5`,
`y1 = y2 - H`, `x2 = x1 + (end - start)·charWidth`, with the outer
`boundingRect.width`/`height` set to the viewport's dimensions and
`rects[0].width`/`height` set to the match width and `H`; and on the
one-page scenario run `{text: "In this paper we present",
transform: [1,0,0,1,0,700], width: 120, height: 10}` with viewport
`{width: 600, height: 800}`, scanning the word "In" yields exactly one
`ScaledPosition`, with `pageNumber = 1` and `boundingRect.y2 = 100`. -/
theorem claim_C1_geometry :
    (∀ (run : TextRun) (vp : Viewport) (pageNum : Nat) (w : List Char) (m : Nat × Nat),
      m ∈ jsMatches run.str w →
        mkPosition run vp pageNum m.1 m.2 ∈ runPositions pageNum vp w run ∧
        (mkPosition run vp pageNum m.1 m.2).pageNumber = pageNum ∧
        (mkPosition run vp pageNum m.1 m.2).boundingRect.x1
          = run.t4 + (m.1 : ℚ) * (run.width / (run.str.length : ℚ)) ∧
        (mkPosition run vp pageNum m.1 m.2).boundingRect.y2 = vp.height - run.t5 ∧
        (mkPosition run vp pageNum m.1 m.2).boundingRect.y1
          = (mkPosition run vp pageNum m.1 m.2).boundingRect.y2 - run.height ∧
        (mkPosition run vp pageNum m.1 m.2).boundingRect.x2
          = (mkPosition run vp pageNum m.1 m.2).boundingRect.x1
            + ((m.2 - m.1 : Nat) : ℚ) * (run.width / (run.str.length : ℚ)) ∧
        (mkPosition run vp pageNum m.1 m.2).boundingRect.width = vp.width ∧
        (mkPosition run vp pageNum m.1 m.2).boundingRect.height = vp.height ∧
        (mkPosition run vp pageNum m.1 m.2).rects
          = [{ x1 := (mkPosition run vp pageNum m.1 m.2).boundingRect.x1,
               y1 := (mkPosition run vp pageNum m.1 m.2).boundingRect.y1,
               x2 := (mkPosition run vp pageNum m.1 m.2).boundingRect.x2,
               y2 := (mkPosition run vp pageNum m.1 m.2).boundingRect.y2,
               width := ((m.2 - m.1 : Nat) : ℚ) * (run.width / (run.str.length : ℚ)),
               height := run.height }]) ∧
    findWordPositionsModel [some samplePage] wordIn = Except.ok [expectedPos] ∧
    expectedPos.pageNumber = 1 ∧
    expectedPos.boundingRect.y2 = 100 := by
  refine ⟨?_, ?_, rfl, rfl⟩
  · intro run vp pageNum w m hm
    exact ⟨List.mem_map_of_mem _ hm, rfl, rfl, rfl, rfl, rfl, rfl, rfl, rfl⟩
  · have h : jsMatches sampleText wordIn = [(0, 2)] := by decide
    have hlen : sampleText.length = 24 := by decide
    simp [findWordPositionsModel, scanPages, scanPage, samplePage, runPositions, sampleRun,
      h, hlen, mkPosition, sampleViewport, expectedPos, Except.map]
    norm_num

/-- Witness for C1 at the scenario input: the match `[0, 2)` of the
word "In" is in the scan result of the sample run, and its `x1`
follows the `charWidth` formula. -/
theorem claim_C1_geometry_witness :
    mkPosition sampleRun sampleViewport 1 (0, 2).1 (0, 2).2
      ∈ runPositions 1 sampleViewport wordIn sampleRun ∧
    (mkPosition sampleRun sampleViewport 1 (0, 2).1 (0, 2).2).boundingRect.x1
      = sampleRun.t4 + (((0, 2).1 : Nat) : ℚ) * (sampleRun.width / (sampleRun.str.length : ℚ)) := by
  have h := claim_C1_geometry.1 sampleRun sampleViewport 1 wordIn (0, 2) (by decide)
  exact ⟨h.1, h.2.2.1⟩

/-- C2: the scanner reports exactly the whole-word occurrences under
the exec-loop semantics: every reported match is a case-sensitive
whole-word occurrence of length `w.length`; reported matches never
overlap; every whole-word occurrence is covered by a reported match
(scanning resumes after the end of each match, so an occurrence
overlapping an earlier match may be covered rather than reported
separately); and "In" matches in "In this paper" but not in "Inside",
"within", or the lower-case "in this paper". -/
theorem claim_C2_whole_word :
    (∀ (cs w : List Char) (p : Nat × Nat), p ∈ jsMatches cs w →
      matchAt cs w p.1 = true ∧ p.2 = p.1 + w.length) ∧
    (∀ (cs w : List Char), (jsMatches cs w).Pairwise (fun p q => p.2 ≤ q.1)) ∧
    (∀ (cs w : List Char), w ≠ [] → ∀ j, matchAt cs w j = true →
      ∃ p ∈ jsMatches cs w, p.1 ≤ j ∧ j < p.1 + w.length) ∧
    jsMatches ((r"In this paper").toList) wordIn = [(0, 2)] ∧
    jsMatches ((r"Inside").toList) wordIn = [] ∧
    jsMatches ((r"within").toList) wordIn = [] ∧
    jsMatches ((r"in this paper").toList) wordIn = [] := by
  refine ⟨?_, jsMatches_pairwise, ?_, by decide, by decide, by decide, by decide⟩
  · intro cs w p hp
    obtain ⟨h1, h2⟩ := jsMatches_sound hp
    exact ⟨h2, h1⟩
  · intro cs w hw j hm
    exact jsMatches_complete hw hm

/-- Witness for C2: the reported match `(0, 2)` of "In" in
"In this paper" is a whole-word occurrence of the word's length. -/
theorem claim_C2_whole_word_witness :
    matchAt ((r"In this paper").toList) wordIn (0, 2).1 = true ∧
    (0, 2).2 = (0, 2).1 + wordIn.length :=
  claim_C2_whole_word.1 ((r"In this paper").toList) wordIn (0, 2) (by decide)

/-- C5: the scanner matches only the literal text of the search word
(all regex metacharacters are escaped before the pattern is built):
every reported match's text equals the word itself, the word "a.b"
matches the literal substring "a.b", and it never matches "axb". -/
theorem claim_C5_literal_matching :
    (∀ (cs w : List Char) (p : Nat × Nat), p ∈ jsMatches cs w →
      (cs.drop p.1).take w.length = w) ∧
    jsMatches ((r"x a.b y").toList) ((r"a.b").toList) = [(2, 5)] ∧
    jsMatches ((r"x axb y").toList) ((r"a.b").toList) = [] := by
  refine ⟨?_, by decide, by decide⟩
  intro cs w p hp
  have h := (jsMatches_sound hp).2
  simp only [matchAt, Bool.and_eq_true, decide_eq_true_eq] at h
  exact h.1.1.2

/-- Witness for C5: the match reported at `(2, 5)` in "x a.b y" is the
literal text "a.b". -/
theorem claim_C5_literal_matching_witness :
    ((r"x a.b y").toList.drop (2, 5).1).take ((r"a.b").toList).length = (r"a.b").toList :=
  claim_C5_literal_matching.1 ((r"x a.b y").toList) ((r"a.b").toList) (2, 5) (by decide)

/-- C7 (code behavior at the failing input): the code performs no
empty-word validation; with the empty search word the pattern `\b\b`
yields a zero-length match at index 0 of the sample run, `exec` leaves
`lastIndex` at 0, and the while loop never terminates — `scanLoop`
returns `none` (loop still running) for every fuel bound, instead of
the invalid-search-term rejection the spec requires. -/
theorem claim_C7_empty_word_loop :
    (∀ fuel : Nat, scanLoop sampleText [] fuel 0 = none) ∧
    findMatch sampleText [] 0 = some (0, 0) := by
  refine ⟨?_, by decide⟩
  intro fuel
  induction fuel with
  | zero => rfl
  | succ fuel ih =>
    have hfm : findMatch sampleText [] 0 = some (0, 0) := by decide
    simp only [scanLoop, hfm, ih, Option.map_none']

/-- C10: for every non-empty word the per-run exec loop terminates:
fuel `length + 1` suffices (each match consumes at least one code unit,
so `lastIndex` strictly increases), and the loop produces at most
`length` matches. -/
theorem claim_C10_termination (cs w : List Char) (hw : w ≠ []) :
    (scanLoop cs w (cs.length + 1) 0).isSome = true ∧
    (jsMatches cs w).length ≤ cs.length := by
  refine ⟨@scanLoop_isSome cs w hw (cs.length + 1) 0 (Nat.zero_le _) (by omega), ?_⟩
  rcases scanLoop_length hw (cs.length + 1) 0 (jsMatches cs w) (jsMatches_eq hw) with hnil | hlen
  · rw [hnil, List.length_nil]
    exact Nat.zero_le _
  · omega

/-- Witness for C10 at the scenario run and word "In". -/
theorem claim_C10_termination_witness :
    (scanLoop sampleText wordIn (sampleText.length + 1) 0).isSome = true ∧
    (jsMatches sampleText wordIn).length ≤ sampleText.length :=
  claim_C10_termination sampleText wordIn (by decide)

/-- C3 (code behavior at the failing input): there is no generation
check — after the document is toggled to B (collection seeded with B's
fixture set, App.tsx line 144), the still-in-flight scan of A completes
and `setHighlights(prev => [...prev, ...highlightsToAdd])` (line 120)
appends A's batch to the current collection, so the collection ends as
`fixtureB ++ staleBatchA` (one leftover automatic highlight from A)
and not exactly B's fixture set as the claim requires. -/
theorem claim_C3_stale_merge :
    runEvents [] [AppEvent.toggleTo fixtureB, AppEvent.scanComplete staleBatchA]
      = fixtureB ++ staleBatchA ∧
    staleBatchA.length = 1 ∧
    runEvents [] [AppEvent.toggleTo fixtureB, AppEvent.scanComplete staleBatchA]
      ≠ fixtureB := by
  have h1 : runEvents [] [AppEvent.toggleTo fixtureB, AppEvent.scanComplete staleBatchA]
      = fixtureB ++ staleBatchA := rfl
  have h2 : staleBatchA.length = 1 := by decide
  refine ⟨h1, h2, ?_⟩
  rw [h1]
  intro heq
  have hlen := congrArg List.length heq
  rw [List.length_append, h2] at hlen
  simp [fixtureB] at hlen

/-- C4: if any page's extraction fails during a scan, the failure
propagates out of the per-page loop — the scan returns the error
rather than silently skipping the page — and `highlightWords` leaves
the highlight collection (and the id supply) unchanged: no positions
gathered before the failure are merged. -/
theorem claim_C4_extraction_failure (pages : List (Option Page)) (w : List Char)
    (ws : List (List Char)) (hs : List Highlight) (n : Nat) (hfail : none ∈ pages) :
    findWordPositionsModel pages w = Except.error () ∧
    highlightWordsModel pages (w :: ws) hs n = (hs, n) := by
  have herr : findWordPositionsModel pages w = Except.error () :=
    scanPages_error pages 1 hfail
  have hbuild : buildHighlights pages (w :: ws) n = Except.error () := by
    simp only [buildHighlights, herr]
  refine ⟨herr, ?_⟩
  simp only [highlightWordsModel, hbuild]

/-- Witness for C4: a document whose second page fails extraction. -/
theorem claim_C4_extraction_failure_witness :
    findWordPositionsModel [some samplePage, none] wordIn = Except.error () ∧
    highlightWordsModel [some samplePage, none] [wordIn] [] 0 = ([], 0) :=
  claim_C4_extraction_failure [some samplePage, none] wordIn [] [] 0 (by decide)

/-- C6: merging an automatic batch appends the freshly tagged records
at the end of the collection without replacing or deduplicating
anything: merging the same batch twice yields two record sets of equal
size with identical id-stripped content and pairwise distinct ids, and
successive per-word scans accumulate in word-list order, leaving all
previously stored highlights in place. -/
theorem claim_C6_merge_append (hs : List Highlight) (word : List Char)
    (ps : List ScaledPosition) (n : Nat) (pages : List (Option Page))
    (w1 w2 : List Char) (hs2 : List Highlight) (n2 : Nat)
    (ps1 ps2 : List ScaledPosition)
    (h1 : findWordPositionsModel pages w1 = Except.ok ps1)
    (h2 : findWordPositionsModel pages w2 = Except.ok ps2) :
    (mergeAutomatic hs word ps n).1 = hs ++ tagBatch word ps n ∧
    (mergeAutomatic (mergeAutomatic hs word ps n).1 word ps (mergeAutomatic hs word ps n).2).1
      = hs ++ tagBatch word ps n ++ tagBatch word ps (n + ps.length) ∧
    (tagBatch word ps n).length = (tagBatch word ps (n + ps.length)).length ∧
    (tagBatch word ps n).length = ps.length ∧
    (tagBatch word ps n).map stripId = (tagBatch word ps (n + ps.length)).map stripId ∧
    (∀ a ∈ tagBatch word ps n, ∀ b ∈ tagBatch word ps (n + ps.length), a.id ≠ b.id) ∧
    highlightWordsModel pages [w1, w2] hs2 n2
      = (hs2 ++ (tagBatch w1 ps1 n2 ++ tagBatch w2 ps2 (n2 + ps1.length)),
         n2 + ps1.length + ps2.length) := by
  refine ⟨rfl, rfl, ?_, tagBatch_length word ps n, ?_, ?_, ?_⟩
  · rw [tagBatch_length, tagBatch_length]
  · rw [tagBatch_strip, tagBatch_strip]
  · intro a ha b hb
    have hA := tagBatch_id_range word ps n a ha
    have hB := tagBatch_id_range word ps (n + ps.length) b hb
    omega
  · simp only [highlightWordsModel, buildHighlights, h1, h2, List.append_nil]

/-- Witness for C6: two successive scans of the sample page for "In"
accumulate in order. -/
theorem claim_C6_merge_append_witness :
    highlightWordsModel [some samplePage] [wordIn, wordIn] [] 0
      = ([] ++ (tagBatch wordIn (scanPage 1 samplePage wordIn ++ []) 0
          ++ tagBatch wordIn (scanPage 1 samplePage wordIn ++ [])
              (0 + (scanPage 1 samplePage wordIn ++ []).length)),
         0 + (scanPage 1 samplePage wordIn ++ []).length
           + (scanPage 1 samplePage wordIn ++ []).length) :=
  (claim_C6_merge_append [] wordIn [] 0 [some samplePage] wordIn wordIn [] 0
    (scanPage 1 samplePage wordIn ++ []) (scanPage 1 samplePage wordIn ++ [])
    rfl rfl).2.2.2.2.2.2

/-- C9: a run with no whole-word occurrence of the search word
contributes no positions (so the loop body containing the division
`width / length` is never entered), a run with empty text contributes
no positions (the division by zero is never evaluated), and a page
with zero runs contributes nothing. -/
theorem claim_C9_no_match (pageNum : Nat) (vp : Viewport) (run : TextRun) (w : List Char) :
    (occList run.str w = [] →
      jsMatches run.str w = [] ∧ runPositions pageNum vp w run = []) ∧
    (run.str = [] → runPositions pageNum vp w run = []) ∧
    scanPage pageNum { runs := [], viewport := vp } w = [] := by
  have key : ∀ cs : List Char, occList cs w = [] → jsMatches cs w = [] := by
    intro cs hocc
    have hall : ∀ i, matchAt cs w i = false := by
      intro i
      cases hm : matchAt cs w i with
      | false => rfl
      | true =>
        exfalso
        have hmem := mem_occList.mpr hm
        rw [hocc] at hmem
        simp at hmem
    have hfm : findMatch cs w 0 = none := by
      cases hfm : findMatch cs w 0 with
      | none => rfl
      | some se =>
        exfalso
        obtain ⟨s, e⟩ := se
        have hms := (findMatch_some hfm).2.2.1
        rw [hall s] at hms
        cases hms
    rw [jsMatches]
    simp only [scanLoop, hfm, Option.getD_some]
  refine ⟨?_, ?_, rfl⟩
  · intro hocc
    have hjs := key run.str hocc
    refine ⟨hjs, ?_⟩
    rw [runPositions, hjs]
    rfl
  · intro hstr
    have hocc : occList run.str w = [] := by
      rw [hstr]
      have hm0 : matchAt [] w 0 = false := by
        simp [matchAt, boundary, wordAt]
      simp [occList, hm0]
    have hjs := key run.str hocc
    rw [runPositions, hjs]
    rfl

/-- Witness for C9: the run "Inside" has no whole-word occurrence of
"In" and contributes nothing. -/
theorem claim_C9_no_match_witness :
    jsMatches insideRun.str wordIn = [] ∧
    runPositions 1 sampleViewport wordIn insideRun = [] :=
  (claim_C9_no_match 1 sampleViewport insideRun wordIn).1 (by decide)

/-- C8 (amended): for a run containing the word as a whole word exactly
`k` times, pairwise non-overlapping, the scanner returns exactly `k`
positions for that run; and — provided the run's total width and
height are positive — every returned rectangle is strictly
non-degenerate: `x1 < x2` and `y1 < y2`. -/
theorem claim_C8_count_and_rects (pageNum : Nat) (vp : Viewport) (run : TextRun)
    (w : List Char) (k : Nat) (hw : w ≠ [])
    (hdisj : (occList run.str w).Pairwise (fun i j => i + w.length ≤ j))
    (hk : (occList run.str w).length = k)
    (hW : 0 < run.width) (hH : 0 < run.height) :
    (runPositions pageNum vp w run).length = k ∧
    ∀ pos ∈ runPositions pageNum vp w run,
      pos.boundingRect.x1 < pos.boundingRect.x2 ∧
      pos.boundingRect.y1 < pos.boundingRect.y2 := by
  have hwpos : 0 < w.length := List.length_pos.mpr hw
  constructor
  · have hpairlt : ((jsMatches run.str w).map Prod.fst).Pairwise (· < ·) := by
      rw [List.pairwise_map]
      refine List.Pairwise.imp_of_mem ?_ (jsMatches_pairwise run.str w)
      intro p q hp hq hr
      have hps := (jsMatches_sound hp).1
      omega
    have hnd1 : ((jsMatches run.str w).map Prod.fst).Nodup :=
      hpairlt.imp (fun h => Nat.ne_of_lt h)
    have hnd2 : (occList run.str w).Nodup :=
      (occList_sorted run.str w).imp (fun h => Nat.ne_of_lt h)
    have hfull : ∀ a ∈ occList run.str w, ∀ b ∈ occList run.str w,
        a < b → a + w.length ≤ b :=
      pairwise_rel_of_sorted (occList_sorted run.str w) hdisj
    have hmemiff : ∀ i, i ∈ (jsMatches run.str w).map Prod.fst ↔ i ∈ occList run.str w := by
      intro i
      constructor
      · intro hi
        obtain ⟨p, hp, rfl⟩ := List.mem_map.mp hi
        exact mem_occList.mpr (jsMatches_sound hp).2
      · intro hi
        have hm := mem_occList.mp hi
        obtain ⟨p, hp, hp1, hp2⟩ := jsMatches_complete hw hm
        have hpm := mem_occList.mpr (jsMatches_sound hp).2
        by_cases hlt : p.1 < i
        · exfalso
          have := hfull p.1 hpm i hi hlt
          omega
        · have heq : p.1 = i := by omega
          exact heq ▸ List.mem_map_of_mem Prod.fst hp
    have hperm := (List.perm_ext_iff_of_nodup hnd1 hnd2).mpr hmemiff
    have hlen := hperm.length_eq
    rw [List.length_map] at hlen
    rw [runPositions, List.length_map]
    omega
  · intro pos hpos
    rw [runPositions] at hpos
    obtain ⟨m, hm, rfl⟩ := List.mem_map.mp hpos
    obtain ⟨hm2, hm3⟩ := jsMatches_sound hm
    have hle := matchAt_le hm3
    have hLpos : 0 < run.str.length := by omega
    have hcw : 0 < run.width / (run.str.length : ℚ) := by
      apply div_pos hW
      exact_mod_cast hLpos
    have hdiff : m.2 - m.1 = w.length := by omega
    constructor
    · simp only [mkPosition, hdiff]
      have hwide : (0 : ℚ) < (w.length : ℚ) * (run.width / (run.str.length : ℚ)) :=
        mul_pos (by exact_mod_cast hwpos) hcw
      linarith
    · simp only [mkPosition]
      linarith

/-- Witness for C8 (amended) at the scenario run, which contains "In"
exactly once. -/
theorem claim_C8_count_and_rects_witness :
    (runPositions 1 sampleViewport wordIn sampleRun).length = 1 ∧
    ∀ pos ∈ runPositions 1 sampleViewport wordIn sampleRun,
      pos.boundingRect.x1 < pos.boundingRect.x2 ∧
      pos.boundingRect.y1 < pos.boundingRect.y2 :=
  claim_C8_count_and_rects 1 sampleViewport sampleRun wordIn 1 (by decide) (by decide)
    (by decide) (by norm_num [sampleRun]) (by norm_num [sampleRun])

/-- C8 counterexample: the zero-extent run contains "In" exactly once
as a whole word (non-overlapping trivially) and the scanner returns
one position for it, but that position's rectangle is degenerate
(`x1 = x2` and `y1 = y2`), refuting the claim's unconditional strict
inequalities. -/
theorem claim_C8_counterexample :
    (occList zeroRun.str wordIn).length = 1 ∧
    (occList zeroRun.str wordIn).Pairwise (fun i j => i + wordIn.length ≤ j) ∧
    (runPositions 1 sampleViewport wordIn zeroRun).length = 1 ∧
    ¬ (∀ pos ∈ runPositions 1 sampleViewport wordIn zeroRun,
        pos.boundingRect.x1 < pos.boundingRect.x2 ∧
        pos.boundingRect.y1 < pos.boundingRect.y2) := by
  refine ⟨by decide, by decide, by decide, ?_⟩
  intro hall
  have hjs : jsMatches zeroRun.str wordIn = [(0, 2)] := by decide
  have hmem : mkPosition zeroRun sampleViewport 1 0 2
      ∈ runPositions 1 sampleViewport wordIn zeroRun := by
    rw [runPositions, hjs]
    simp
  obtain ⟨h1, _⟩ := hall _ hmem
  simp only [mkPosition, zeroRun] at h1
  norm_num at h1

end Highlighter
